import Mathlib

/-!
Verification development for the onebrc aggregation engine
(src/main.rs, src/temperature.rs).

Byte strings are modelled as `List Nat` (each element a byte value).
Machine integers are modelled as `Int`/`Nat` with explicit wrapping:
Rust `i32` arithmetic wraps modulo 2^32 in release builds, so every
arithmetic step of the source is embedded with an explicit `wrap32`
(resp. `wrapU32` for `u32` counts).
-/

/-- Wrap an unbounded integer into the `i32` range, as Rust wrapping
`i32` arithmetic does. -/
def wrap32 (n : Int) : Int := (n + 2147483648) % 4294967296 - 2147483648

/-- Wrap a natural number into the `u32` range. -/
def wrapU32 (n : Nat) : Nat := n % 4294967296

/-- Rust `i32` negation (wrapping at `i32::MIN`). -/
def i32neg (n : Int) : Int := wrap32 (-n)

/-- Rust `i32::abs` (wrapping: `abs i32::MIN = i32::MIN`). -/
def i32abs (n : Int) : Int := if n < 0 then i32neg n else n

/-- `b` is an ASCII digit byte (the `b'0'..=b'9'` range of the source). -/
def isDigitB (b : Nat) : Bool := 48 ≤ b && b ≤ 57

/-- `src/temperature.rs`: `struct Temperature { tenths: i32 }`. -/
structure Temperature where
  tenths : Int
deriving DecidableEq

/-- Little-endian base-10 digits of `n` by fuel-based recursion
(`natDigitsLE n = Nat.digits 10 n`, proved below); fuel-based so that
the kernel can evaluate it. -/
def natToDecAux : Nat → Nat → List Nat
  | 0, _ => []
  | _ + 1, 0 => []
  | fuel + 1, n + 1 => ((n + 1) % 10) :: natToDecAux fuel ((n + 1) / 10)

/-- Little-endian base-10 digits of `n`. -/
def natDigitsLE (n : Nat) : List Nat := natToDecAux n n

/-- Decimal rendering of a natural number as ASCII bytes, `0 ↦ "0"`,
as Rust `Display` for unsigned values. -/
def natToDec (n : Nat) : List Nat :=
  if n = 0 then [48] else ((natDigitsLE n).reverse.map (fun d => d + 48))

/-- Decimal rendering of an integer, `-` prefix when negative,
as Rust `Display` for `i32`. -/
def intToDec (n : Int) : List Nat :=
  if n < 0 then 45 :: natToDec (-n).toNat else natToDec n.toNat

/-- `impl fmt::Display for Temperature`: sign when `tenths` is negative,
then `abs/10`, a dot, and `abs%10`, each rendered as an `i32`
(`tdiv`/`tmod` are Rust's truncating `/` and `%`). -/
def Temperature.display (t : Temperature) : List Nat :=
  (if t.tenths < 0 then [45] else []) ++
    intToDec ((i32abs t.tenths).tdiv 10) ++ [46] ++
    intToDec ((i32abs t.tenths).tmod 10)

/-- One step of `Temperature::parse`'s loop body: `b'-'` sets the
negative flag, a digit byte shifts in a new least significant digit
(wrapping `i32` arithmetic), everything else is skipped. -/
def parseStep (acc : Int × Bool) (b : Nat) : Int × Bool :=
  if b = 45 then (acc.1, true)
  else if isDigitB b then (wrap32 (acc.1 * 10 + ((b : Int) - 48)), acc.2)
  else acc

/-- `Temperature::parse`: the relaxed parser, a total fold over all bytes. -/
def Temperature.parse (s : List Nat) : Temperature :=
  let r := s.foldl parseStep (0, false)
  ⟨if r.2 then i32neg r.1 else r.1⟩

/-- The state machine of `Temperature::parse_strict`. -/
inductive PState
  | sign
  | digit
  | frac
  | done
deriving DecidableEq

/-- The loop of `Temperature::parse_strict`, processing one byte
at a time against the current state, with the final
`state != Done` and negation checks at end of input. -/
def psGo : PState → Bool → Int → List Nat → Except String Temperature
  | st, neg, t, [] =>
    if st = PState.done then Except.ok ⟨if neg then i32neg t else t⟩
    else Except.error "truncated input"
  | PState.sign, _, t, b :: rest =>
    if b = 45 then psGo PState.digit true t rest
    else if isDigitB b then psGo PState.digit false ((b : Int) - 48) rest
    else Except.error "invalid character"
  | PState.digit, neg, t, b :: rest =>
    if isDigitB b then psGo PState.digit neg (wrap32 (t * 10 + ((b : Int) - 48))) rest
    else if b = 46 then psGo PState.frac neg t rest
    else Except.error "invalid character"
  | PState.frac, neg, t, b :: rest =>
    if isDigitB b then psGo PState.done neg (wrap32 (t * 10 + ((b : Int) - 48))) rest
    else Except.error "invalid character"
  | PState.done, _, _, _ :: _ => Except.error "trailing characters"

/-- `Temperature::parse_strict`: the validating parser for
the grammar `-?[0-9]+\.[0-9]`. -/
def Temperature.parse_strict (s : List Nat) : Except String Temperature :=
  psGo PState.sign false 0 s

/-- `impl ops::AddAssign for Temperature`: wrapping `i32` addition of
the tenths counts. -/
def Temperature.add (a b : Temperature) : Temperature :=
  ⟨wrap32 (a.tenths + b.tenths)⟩

/-- Round-half-away-from-zero of the rational `x / n`. -/
def roundHalfAway (x : Int) (n : Nat) : Int :=
  if 0 ≤ x then Int.ediv (2 * x + n) (2 * n)
  else -(Int.ediv (2 * (-x) + n) (2 * n))

/-- `impl ops::Div<u32> for Temperature`. The source computes
`((tenths as f64) / (rhs as f64)).round() as i32`; for every `i32`
numerator and `u32` denominator both operands and every half-integer
near the quotient are below 2^53, so the correctly-rounded `f64`
division followed by `f64::round` (ties away from zero) computes
exactly the round-half-away-from-zero of the rational quotient, which
is what this embedding uses. -/
def Temperature.div (t : Temperature) (n : Nat) : Temperature :=
  ⟨roundHalfAway t.tenths n⟩

/-- `src/main.rs`: `struct Row` — a city name (raw bytes) and a
temperature. -/
structure Row where
  city : List Nat
  temp : Temperature
deriving DecidableEq

/-- `s.iter().position(p)`: index of the first byte satisfying `p`. -/
def bytePos (p : Nat → Bool) : List Nat → Option Nat
  | [] => none
  | b :: rest => if p b then some 0 else (bytePos p rest).map (fun i => i + 1)

/-- `Row::parse`: find the first `b';'` (byte 59); `None` when there is
none; otherwise split there, the temperature bytes starting with the
`';'` itself (ignored by `Temperature::parse`). -/
def Row.parse (s : List Nat) : Option Row :=
  match bytePos (fun b => b == 59) s with
  | none => none
  | some i => some ⟨s.take i, Temperature.parse (s.drop i)⟩

/-- `src/main.rs`: `struct Stats` — running total, count, min, max. -/
structure Stats where
  total : Temperature
  count : Nat
  min : Temperature
  max : Temperature
deriving DecidableEq

/-- `Stats::new`: first observation of a key. -/
def Stats.new (t : Temperature) : Stats :=
  ⟨t, 1, t, t⟩

/-- `Stats::update_row`: add one temperature (wrapping `i32`/`u32`
additions; min/max compare by derived `Ord`, i.e. by `tenths`). -/
def Stats.update_row (s : Stats) (t : Temperature) : Stats :=
  { total := s.total.add t
    count := wrapU32 (s.count + 1)
    min := if t.tenths < s.min.tenths then t else s.min
    max := if t.tenths > s.max.tenths then t else s.max }

/-- `Stats::update_stats`: absorb another aggregate for the same key. -/
def Stats.update_stats (s : Stats) (o : Stats) : Stats :=
  { total := s.total.add o.total
    count := wrapU32 (s.count + o.count)
    min := if o.min.tenths < s.min.tenths then o.min else s.min
    max := if o.max.tenths > s.max.tenths then o.max else s.max }

/-- `struct FinalStats`. -/
structure FinalStats where
  mean : Temperature
  min : Temperature
  max : Temperature
deriving DecidableEq

/-- `Stats::finalize`: mean is `total / count`. -/
def Stats.finalize (s : Stats) : FinalStats :=
  ⟨s.total.div s.count, s.min, s.max⟩

/-- `impl fmt::Display for FinalStats`: `min/mean/max`. -/
def FinalStats.display (s : FinalStats) : List Nat :=
  s.min.display ++ [47] ++ s.mean.display ++ [47] ++ s.max.display

/-- `struct ResultsMap`, modelled as an association list of
`(city, Stats)` entries with unique keys (the hash map's contents;
entries are appended on first insertion). -/
structure ResultsMap where
  map : List (List Nat × Stats)
deriving DecidableEq

/-- The empty map (`ResultsMap::default()`). -/
def ResultsMap.empty : ResultsMap := ⟨[]⟩

/-- Update-or-insert for `ingest`: update the entry of `city` by
`update_row` if present, otherwise append a fresh `Stats::new`. -/
def ingestEntry : List (List Nat × Stats) → List Nat → Temperature → List (List Nat × Stats)
  | [], city, t => [(city, Stats.new t)]
  | (c, s) :: rest, city, t =>
    if c = city then (c, s.update_row t) :: rest
    else (c, s) :: ingestEntry rest city t

/-- `ResultsMap::ingest`: look up the row's city; update the existing
entry or insert a new one. -/
def ResultsMap.ingest (m : ResultsMap) (row : Row) : ResultsMap :=
  ⟨ingestEntry m.map row.city row.temp⟩

/-- Update-or-insert for `merge`: absorb a whole `Stats` via
`update_stats` if the key is present, otherwise append the entry. -/
def insertEntry : List (List Nat × Stats) → List Nat → Stats → List (List Nat × Stats)
  | [], city, st => [(city, st)]
  | (c, s) :: rest, city, st =>
    if c = city then (c, s.update_stats st) :: rest
    else (c, s) :: insertEntry rest city st

/-- `ResultsMap::merge`: the empty-receiver special case takes `other`
in place; otherwise every entry of `other` is inserted/absorbed. -/
def ResultsMap.merge (self other : ResultsMap) : ResultsMap :=
  if self.map.isEmpty then other
  else ⟨other.map.foldl (fun acc p => insertEntry acc p.1 p.2) self.map⟩

/-- Look up the `Stats` recorded for a key. -/
def findEntry : List (List Nat × Stats) → List Nat → Option Stats
  | [], _ => none
  | (c, s) :: rest, k => if c = k then some s else findEntry rest k

/-- The contents of a `ResultsMap` at a key. -/
def ResultsMap.find (m : ResultsMap) (k : List Nat) : Option Stats :=
  findEntry m.map k

/-- Invariant of the hash map: at most one entry per key. -/
def ResultsMap.WF (m : ResultsMap) : Prop :=
  m.map.Pairwise (fun p q => p.1 ≠ q.1)

/-- Aggregate a list of rows into a fresh map (one worker's fold). -/
def ResultsMap.ingestAll (rows : List Row) : ResultsMap :=
  rows.foldl ResultsMap.ingest ResultsMap.empty

/-- `data.split(|&b| b == b'\n')`: split on newline bytes; separators
are dropped, empty segments kept (`[] ↦ [[]]`). -/
def splitSep : List Nat → List (List Nat)
  | [] => [[]]
  | b :: rest =>
    if b = 10 then [] :: splitSep rest
    else
      match splitSep rest with
      | g :: gs => (b :: g) :: gs
      | [] => [[b]]

/-- The fold body of `process_data`: parse a line and ingest it, or
leave the accumulator unchanged when `Row::parse` fails. -/
def rowStep (m : ResultsMap) (line : List Nat) : ResultsMap :=
  match Row.parse line with
  | some row => m.ingest row
  | none => m

/-- `process_data` (single-threaded variant): split the buffer on
newlines and fold every line into one `ResultsMap`. -/
def processData (data : List Nat) : ResultsMap :=
  (splitSep data).foldl rowStep ResultsMap.empty

/-- Lexicographic byte-order comparison (Rust `Ord` on byte slices):
a proper prefix is smaller. -/
def lexLe : List Nat → List Nat → Bool
  | [], _ => true
  | _ :: _, [] => false
  | a :: as_, b :: bs => a < b || (a == b && lexLe as_ bs)

/-- The sort relation of `main`: compare summary entries by city key. -/
def keyLe (p q : List Nat × FinalStats) : Prop := lexLe p.1 q.1 = true

instance : DecidableRel keyLe := fun _ _ => inferInstanceAs (Decidable (_ = true))

/-- `main`'s summary construction: finalize every entry and sort by
city name (`sort_unstable_by` on the key). -/
def summarize (data : List Nat) : List (List Nat × FinalStats) :=
  List.insertionSort keyLe
    ((processData data).map.map (fun p => (p.1, p.2.finalize)))

/-- `main`'s output loop: brace-wrapped, comma-separated
`city=min/mean/max` entries. -/
def renderSummary (l : List (List Nat × FinalStats)) : List Nat :=
  [123] ++ List.intercalate [44, 32] (l.map (fun p => p.1 ++ [61] ++ p.2.display)) ++ [125]

/-- The whole program on a byte buffer: aggregate, finalize, sort,
render. -/
def pipeline (data : List Nat) : List Nat :=
  renderSummary (summarize data)

/-- ASCII bytes of a string literal (all inputs used here are ASCII). -/
def strBytes (s : String) : List Nat := s.toList.map Char.toNat

/-!  Specification-side definitions used to state the claims. -/

/-- Pointwise combination of optional per-key stats, the abstract
meaning of one `merge` at one key. -/
def mergeOpt : Option Stats → Option Stats → Option Stats
  | o1, none => o1
  | none, some s2 => some s2
  | some s1, some s2 => some (s1.update_stats s2)

/-- Incorporate one observation into an optional aggregate, the
abstract meaning of one `ingest` at one key. -/
def obs1 (o : Option Stats) (t : Temperature) : Stats :=
  match o with
  | none => Stats.new t
  | some s => s.update_row t

/-- Incorporate a list of observations. -/
def combTemps (o : Option Stats) (ts : List Temperature) : Option Stats :=
  ts.foldl (fun o t => some (obs1 o t)) o

/-- The temperatures of the rows whose city is `k`, in order. -/
def tempsFor (k : List Nat) (rows : List Row) : List Temperature :=
  (rows.filter (fun r => decide (r.city = k))).map Row.temp

/-- Digit accumulation with wrapping `i32` arithmetic, starting
from `t`. -/
def accFrom (t : Int) (l : List Nat) : Int :=
  l.foldl (fun a (d : Nat) => wrap32 (a * 10 + ((d : Int) - 48))) t

/-- The numeric value of a big-endian list of ASCII digit bytes. -/
def valNat (l : List Nat) : Nat :=
  Nat.ofDigits 10 ((l.map (fun d => d - 48)).reverse)

/-- The byte string `-?<ds>.<f>`: optional minus, integer digits `ds`,
dot, fractional digit `f`. -/
def grammarStr (neg : Bool) (ds : List Nat) (f : Nat) : List Nat :=
  (if neg then [45] else []) ++ ds ++ [46, f]

/-- `s` matches the strict grammar `-?[0-9]+\.[0-9]`. -/
def MatchesGrammar (s : List Nat) : Prop :=
  ∃ neg ds f, s = grammarStr neg ds f ∧ ds ≠ [] ∧
    (∀ d ∈ ds, isDigitB d = true) ∧ isDigitB f = true

example : Temperature.parse [49, 50, 46, 51] = ⟨123⟩ := by decide
example : Temperature.parse [45, 48, 46, 49] = ⟨-1⟩ := by decide
example : Temperature.parse_strict [49, 50, 46, 51] = Except.ok ⟨123⟩ := rfl
example : Temperature.parse_strict [45, 49, 50, 51] = Except.error "truncated input" := rfl
example : Temperature.display ⟨-35⟩ = [45, 51, 46, 53] := by decide
example : Temperature.div ⟨25⟩ 2 = ⟨13⟩ := by decide
example : Temperature.div ⟨-35⟩ 1 = ⟨-35⟩ := by decide

/-!  Arithmetic lemmas about wrapping. -/

theorem wrap32_add_left (a b : Int) : wrap32 (wrap32 a + b) = wrap32 (a + b) := by
  unfold wrap32
  omega

theorem wrap32_add_right (a b : Int) : wrap32 (a + wrap32 b) = wrap32 (a + b) := by
  unfold wrap32
  omega

theorem wrap32_small {n : Int} (h1 : -2147483648 ≤ n) (h2 : n < 2147483648) :
    wrap32 n = n := by
  unfold wrap32
  omega

theorem wrapU32_add_left (a b : Nat) : wrapU32 (wrapU32 a + b) = wrapU32 (a + b) := by
  unfold wrapU32
  omega

theorem wrapU32_add_right (a b : Nat) : wrapU32 (a + wrapU32 b) = wrapU32 (a + b) := by
  unfold wrapU32
  omega

/-!  Algebra of `Stats`. -/

theorem update_stats_comm (a b : Stats) : a.update_stats b = b.update_stats a := by
  obtain ⟨⟨ta⟩, ca, ⟨mna⟩, ⟨mxa⟩⟩ := a
  obtain ⟨⟨tb⟩, cb, ⟨mnb⟩, ⟨mxb⟩⟩ := b
  simp only [Stats.update_stats, Temperature.add, Stats.mk.injEq, Temperature.mk.injEq,
    wrapU32, wrap32]
  refine ⟨by omega, by omega, ?_, ?_⟩ <;>
    · split_ifs <;> simp_all [Temperature.mk.injEq] <;> omega

theorem update_stats_assoc (a b c : Stats) :
    (a.update_stats b).update_stats c = a.update_stats (b.update_stats c) := by
  obtain ⟨⟨ta⟩, ca, ⟨mna⟩, ⟨mxa⟩⟩ := a
  obtain ⟨⟨tb⟩, cb, ⟨mnb⟩, ⟨mxb⟩⟩ := b
  obtain ⟨⟨tc⟩, cc, ⟨mnc⟩, ⟨mxc⟩⟩ := c
  simp only [Stats.update_stats, Temperature.add, Stats.mk.injEq, Temperature.mk.injEq,
    wrapU32, wrap32]
  refine ⟨by omega, by omega, ?_, ?_⟩ <;>
    · split_ifs <;> simp_all [Temperature.mk.injEq] <;> omega

theorem update_stats_new (s : Stats) (t : Temperature) :
    s.update_stats (Stats.new t) = s.update_row t := rfl

theorem update_stats_update_row (a b : Stats) (t : Temperature) :
    a.update_stats (b.update_row t) = (a.update_stats b).update_row t := by
  obtain ⟨⟨ta⟩, ca, ⟨mna⟩, ⟨mxa⟩⟩ := a
  obtain ⟨⟨tb⟩, cb, ⟨mnb⟩, ⟨mxb⟩⟩ := b
  obtain ⟨tt⟩ := t
  simp only [Stats.update_stats, Stats.update_row, Temperature.add, Stats.mk.injEq,
    Temperature.mk.injEq, wrapU32, wrap32]
  refine ⟨by omega, by omega, ?_, ?_⟩ <;>
    · split_ifs <;> simp_all [Temperature.mk.injEq] <;> omega

/-!  Algebra of `mergeOpt`. -/

theorem mergeOpt_none_left (o : Option Stats) : mergeOpt none o = o := by
  cases o <;> rfl

theorem mergeOpt_none_right (o : Option Stats) : mergeOpt o none = o := by
  cases o <;> rfl

theorem mergeOpt_comm (a b : Option Stats) : mergeOpt a b = mergeOpt b a := by
  cases a <;> cases b <;> simp [mergeOpt, update_stats_comm]

theorem mergeOpt_assoc (a b c : Option Stats) :
    mergeOpt (mergeOpt a b) c = mergeOpt a (mergeOpt b c) := by
  cases a <;> cases b <;> cases c <;> simp [mergeOpt, update_stats_assoc]

/-!  Lookup behaviour of `ingest`, `insert` and `merge`. -/

theorem findEntry_ingestEntry (l : List (List Nat × Stats)) (c k : List Nat)
    (t : Temperature) :
    findEntry (ingestEntry l c t) k =
      if c = k then some (obs1 (findEntry l k) t) else findEntry l k := by
  induction l with
  | nil =>
    by_cases h : c = k <;> simp [ingestEntry, findEntry, h, obs1]
  | cons p rest ih =>
    obtain ⟨c2, s⟩ := p
    by_cases h1 : c2 = c
    · subst h1
      by_cases h2 : c2 = k <;> simp [ingestEntry, findEntry, h2, obs1]
    · by_cases h2 : c2 = k
      · subst h2
        have h3 : ¬c = c2 := fun h => h1 h.symm
        simp [ingestEntry, findEntry, h1, h3, ih]
      · simp [ingestEntry, findEntry, h1, h2, ih]

theorem findEntry_insertEntry (l : List (List Nat × Stats)) (c k : List Nat)
    (st : Stats) :
    findEntry (insertEntry l c st) k =
      if c = k then mergeOpt (findEntry l k) (some st) else findEntry l k := by
  induction l with
  | nil =>
    by_cases h : c = k <;> simp [insertEntry, findEntry, h, mergeOpt]
  | cons p rest ih =>
    obtain ⟨c2, s⟩ := p
    by_cases h1 : c2 = c
    · subst h1
      by_cases h2 : c2 = k <;> simp [insertEntry, findEntry, h2, mergeOpt]
    · by_cases h2 : c2 = k
      · subst h2
        have h3 : ¬c = c2 := fun h => h1 h.symm
        simp [insertEntry, findEntry, h1, h3, ih]
      · simp [insertEntry, findEntry, h1, h2, ih]

/-- Keys appearing after an `ingestEntry` were already present or are
the ingested key. -/
theorem mem_keys_ingestEntry {l : List (List Nat × Stats)} {c : List Nat}
    {t : Temperature} {q : List Nat × Stats} (h : q ∈ ingestEntry l c t) :
    q.1 ∈ l.map Prod.fst ∨ q.1 = c := by
  induction l with
  | nil =>
    simp [ingestEntry] at h
    simp [h]
  | cons p rest ih =>
    obtain ⟨c2, s⟩ := p
    by_cases h1 : c2 = c
    · subst h1
      simp [ingestEntry] at h
      rcases h with h | h
      · simp [h]
      · simp only [List.map_cons, List.mem_cons]
        exact Or.inl (Or.inr (List.mem_map_of_mem Prod.fst h))
    · simp [ingestEntry, h1] at h
      rcases h with h | h
      · simp [h]
      · rcases ih h with h2 | h2
        · simp only [List.map_cons, List.mem_cons]
          exact Or.inl (Or.inr h2)
        · exact Or.inr h2

theorem mem_keys_insertEntry {l : List (List Nat × Stats)} {c : List Nat}
    {st : Stats} {q : List Nat × Stats} (h : q ∈ insertEntry l c st) :
    q.1 ∈ l.map Prod.fst ∨ q.1 = c := by
  induction l with
  | nil =>
    simp [insertEntry] at h
    simp [h]
  | cons p rest ih =>
    obtain ⟨c2, s⟩ := p
    by_cases h1 : c2 = c
    · subst h1
      simp [insertEntry] at h
      rcases h with h | h
      · simp [h]
      · simp only [List.map_cons, List.mem_cons]
        exact Or.inl (Or.inr (List.mem_map_of_mem Prod.fst h))
    · simp [insertEntry, h1] at h
      rcases h with h | h
      · simp [h]
      · rcases ih h with h2 | h2
        · simp only [List.map_cons, List.mem_cons]
          exact Or.inl (Or.inr h2)
        · exact Or.inr h2

/-!  The unique-keys invariant is preserved by every operation. -/

theorem pairwise_ingestEntry {l : List (List Nat × Stats)} {c : List Nat}
    {t : Temperature} (h : l.Pairwise (fun p q => p.1 ≠ q.1)) :
    (ingestEntry l c t).Pairwise (fun p q => p.1 ≠ q.1) := by
  induction l with
  | nil => simp [ingestEntry]
  | cons p rest ih =>
    obtain ⟨c2, s⟩ := p
    rw [List.pairwise_cons] at h
    obtain ⟨hhead, hrest⟩ := h
    by_cases h1 : c2 = c
    · subst h1
      have he : ingestEntry ((c2, s) :: rest) c2 t = (c2, s.update_row t) :: rest := by
        simp [ingestEntry]
      rw [he, List.pairwise_cons]
      exact ⟨hhead, hrest⟩
    · rw [ingestEntry]
      simp only [h1, if_false]
      rw [List.pairwise_cons]
      refine ⟨?_, ih hrest⟩
      intro q hq
      rcases mem_keys_ingestEntry hq with h2 | h2
      · intro he
        obtain ⟨q2, hq2, hq2e⟩ := List.mem_map.mp h2
        exact hhead q2 hq2 (by rw [he, hq2e])
      · rw [h2]
        exact h1
    
theorem pairwise_insertEntry {l : List (List Nat × Stats)} {c : List Nat}
    {st : Stats} (h : l.Pairwise (fun p q => p.1 ≠ q.1)) :
    (insertEntry l c st).Pairwise (fun p q => p.1 ≠ q.1) := by
  induction l with
  | nil => simp [insertEntry]
  | cons p rest ih =>
    obtain ⟨c2, s⟩ := p
    rw [List.pairwise_cons] at h
    obtain ⟨hhead, hrest⟩ := h
    by_cases h1 : c2 = c
    · subst h1
      have he : insertEntry ((c2, s) :: rest) c2 st = (c2, s.update_stats st) :: rest := by
        simp [insertEntry]
      rw [he, List.pairwise_cons]
      exact ⟨hhead, hrest⟩
    · rw [insertEntry]
      simp only [h1, if_false]
      rw [List.pairwise_cons]
      refine ⟨?_, ih hrest⟩
      intro q hq
      rcases mem_keys_insertEntry hq with h2 | h2
      · intro he
        obtain ⟨q2, hq2, hq2e⟩ := List.mem_map.mp h2
        exact hhead q2 hq2 (by rw [he, hq2e])
      · rw [h2]
        exact h1

theorem wf_ingest {m : ResultsMap} (h : m.WF) (row : Row) : (m.ingest row).WF :=
  pairwise_ingestEntry h

theorem wf_empty : ResultsMap.empty.WF := List.Pairwise.nil

theorem wf_foldl_insert {l : List (List Nat × Stats)}
    (es : List (List Nat × Stats)) (h : l.Pairwise (fun p q => p.1 ≠ q.1)) :
    (es.foldl (fun acc p => insertEntry acc p.1 p.2) l).Pairwise
      (fun p q => p.1 ≠ q.1) := by
  induction es generalizing l with
  | nil => exact h
  | cons e es ih => exact ih (pairwise_insertEntry h)

theorem wf_merge {a b : ResultsMap} (ha : a.WF) (hb : b.WF) : (a.merge b).WF := by
  unfold ResultsMap.merge
  by_cases h : a.map.isEmpty <;> simp only [h, if_true, if_false]
  · exact hb
  · exact wf_foldl_insert b.map ha

theorem wf_ingestAll (rows : List Row) : (ResultsMap.ingestAll rows).WF := by
  unfold ResultsMap.ingestAll
  have h : ∀ (m : ResultsMap), m.WF → (rows.foldl ResultsMap.ingest m).WF := by
    induction rows with
    | nil => exact fun m hm => hm
    | cons r rows ih => exact fun m hm => ih _ (wf_ingest hm r)
  exact h _ wf_empty

theorem wf_rowStep {m : ResultsMap} (h : m.WF) (line : List Nat) :
    (rowStep m line).WF := by
  unfold rowStep
  cases Row.parse line with
  | none => exact h
  | some row => exact wf_ingest h row

theorem wf_processData (data : List Nat) : (processData data).WF := by
  unfold processData
  have h : ∀ (ls : List (List Nat)) (m : ResultsMap), m.WF →
      (ls.foldl rowStep m).WF := by
    intro ls
    induction ls with
    | nil => exact fun m hm => hm
    | cons l ls ih => exact fun m hm => ih _ (wf_rowStep hm l)
  exact h _ _ wf_empty

/-- A key absent from an entry list looks up to `none`. -/
theorem findEntry_eq_none (es : List (List Nat × Stats)) (k : List Nat)
    (h : ∀ q ∈ es, q.1 ≠ k) : findEntry es k = none := by
  induction es with
  | nil => rfl
  | cons e es ih =>
    obtain ⟨c, s⟩ := e
    have hc : ¬c = k := h (c, s) (List.mem_cons_self _ _)
    rw [findEntry]
    simp only [hc, if_false]
    exact ih fun q hq => h q (List.mem_cons_of_mem _ hq)

/-- Folding `insertEntry` over a duplicate-free entry list combines
lookups pointwise. -/
theorem findEntry_foldl_insert (es : List (List Nat × Stats))
    (hes : es.Pairwise (fun p q => p.1 ≠ q.1)) (l : List (List Nat × Stats))
    (k : List Nat) :
    findEntry (es.foldl (fun acc p => insertEntry acc p.1 p.2) l) k =
      mergeOpt (findEntry l k) (findEntry es k) := by
  induction es generalizing l with
  | nil => simp [findEntry, mergeOpt_none_right]
  | cons e es ih =>
    obtain ⟨c, s⟩ := e
    rw [List.pairwise_cons] at hes
    obtain ⟨hhead, hrest⟩ := hes
    rw [List.foldl_cons, ih hrest, findEntry_insertEntry]
    by_cases h : c = k
    · subst h
      have hnone : findEntry es c = none :=
        findEntry_eq_none es c fun q hq he => hhead q hq he.symm
      rw [findEntry]
      simp [hnone, mergeOpt_none_right]
    · rw [findEntry]
      simp only [h, if_false]

/-- Lookup after a `merge` is the pointwise combination of lookups,
provided `other` satisfies the unique-keys invariant. -/
theorem find_merge (m other : ResultsMap) (hother : other.WF) (k : List Nat) :
    (m.merge other).find k = mergeOpt (m.find k) (other.find k) := by
  unfold ResultsMap.merge ResultsMap.find
  by_cases h : m.map.isEmpty <;> simp only [h, if_true, if_false]
  · have hm : m.map = [] := by
      cases hmm : m.map
      · rfl
      · rw [hmm] at h
        simp [List.isEmpty] at h
    rw [hm]
    exact (mergeOpt_none_left _).symm
  · exact findEntry_foldl_insert other.map hother m.map k

/-!  From rows to per-key temperature lists. -/

theorem find_ingest (m : ResultsMap) (r : Row) (k : List Nat) :
    (m.ingest r).find k =
      if r.city = k then some (obs1 (m.find k) r.temp) else m.find k :=
  findEntry_ingestEntry m.map r.city k r.temp

theorem combTemps_cons (o : Option Stats) (t : Temperature) (ts : List Temperature) :
    combTemps o (t :: ts) = combTemps (some (obs1 o t)) ts := rfl

theorem combTemps_append (o : Option Stats) (ts1 ts2 : List Temperature) :
    combTemps o (ts1 ++ ts2) = combTemps (combTemps o ts1) ts2 := by
  unfold combTemps
  exact List.foldl_append _ _ _ _

theorem tempsFor_cons (k : List Nat) (r : Row) (rows : List Row) :
    tempsFor k (r :: rows) =
      if r.city = k then r.temp :: tempsFor k rows else tempsFor k rows := by
  unfold tempsFor
  by_cases h : r.city = k <;> simp [h]

theorem tempsFor_append (k : List Nat) (l1 l2 : List Row) :
    tempsFor k (l1 ++ l2) = tempsFor k l1 ++ tempsFor k l2 := by
  unfold tempsFor
  rw [List.filter_append, List.map_append]

theorem find_foldl_ingest (rows : List Row) (m : ResultsMap) (k : List Nat) :
    (rows.foldl ResultsMap.ingest m).find k = combTemps (m.find k) (tempsFor k rows) := by
  induction rows generalizing m with
  | nil => rfl
  | cons r rows ih =>
    rw [List.foldl_cons, ih, find_ingest, tempsFor_cons]
    by_cases h : r.city = k <;> simp only [h, if_true, if_false, combTemps_cons]

theorem find_ingestAll (rows : List Row) (k : List Nat) :
    (ResultsMap.ingestAll rows).find k = combTemps none (tempsFor k rows) :=
  find_foldl_ingest rows ResultsMap.empty k

/-!  The fold/merge homomorphism. -/

theorem foldl_update_row_update_stats (ts : List Temperature) (a b : Stats) :
    a.update_stats (ts.foldl Stats.update_row b) =
      ts.foldl Stats.update_row (a.update_stats b) := by
  induction ts generalizing b with
  | nil => rfl
  | cons t ts ih =>
    rw [List.foldl_cons, List.foldl_cons, ih, update_stats_update_row]

theorem combTemps_some (s : Stats) (ts : List Temperature) :
    combTemps (some s) ts = some (ts.foldl Stats.update_row s) := by
  induction ts generalizing s with
  | nil => rfl
  | cons t ts ih => rw [combTemps_cons, List.foldl_cons]; exact ih _

/-- Aggregating two lists of observations separately and absorbing one
aggregate into the other is the same as aggregating the concatenation. -/
theorem mergeOpt_combTemps (ts1 ts2 : List Temperature) :
    mergeOpt (combTemps none ts1) (combTemps none ts2) =
      combTemps none (ts1 ++ ts2) := by
  cases ts1 with
  | nil => rw [List.nil_append]; exact mergeOpt_none_left _
  | cons t1 r1 =>
    cases ts2 with
    | nil => rw [List.append_nil]; exact mergeOpt_none_right _
    | cons t2 r2 =>
      rw [combTemps_cons, combTemps_cons, combTemps_some, combTemps_some, mergeOpt]
      simp only [obs1]
      rw [foldl_update_row_update_stats, update_stats_new]
      rw [List.cons_append, combTemps_cons, combTemps_some]
      rw [List.foldl_append, List.foldl_cons]
      simp only [obs1]

/-!  Partition invariance of the fold/merge pipeline. -/

theorem find_foldl_merge (gs : List (List Row)) (m : ResultsMap) (k : List Nat) :
    ((gs.foldl (fun acc g => acc.merge (ResultsMap.ingestAll g)) m).find k) =
      gs.foldl (fun o g => mergeOpt o ((ResultsMap.ingestAll g).find k)) (m.find k) := by
  induction gs generalizing m with
  | nil => rfl
  | cons g gs ih =>
    rw [List.foldl_cons, List.foldl_cons, ih, find_merge _ _ (wf_ingestAll g)]

theorem foldl_mergeOpt_groups (gs : List (List Row)) (k : List Nat)
    (ts0 : List Temperature) :
    gs.foldl (fun o g => mergeOpt o ((ResultsMap.ingestAll g).find k))
        (combTemps none ts0) =
      combTemps none (ts0 ++ tempsFor k gs.flatten) := by
  induction gs generalizing ts0 with
  | nil => simp [tempsFor]
  | cons g gs ih =>
    rw [List.foldl_cons, find_ingestAll, mergeOpt_combTemps, ih,
      List.flatten_cons, tempsFor_append, List.append_assoc]

/-- C1: aggregating the groups of any partition of a multiset of
records independently (`ingestAll`) and merging the partial maps
yields, at every key, the same `Stats` as aggregating the whole list
in one pass; moreover `ResultsMap.merge` is associative and
commutative up to map contents (lookup at every key), for maps
satisfying the unique-keys invariant that all maps built by the
program satisfy. -/
theorem merge_partition_and_algebra :
    (∀ (gs : List (List Row)) (k : List Nat),
        ((gs.foldl (fun acc g => acc.merge (ResultsMap.ingestAll g))
            ResultsMap.empty).find k)
          = (ResultsMap.ingestAll gs.flatten).find k)
  ∧ (∀ a b c : ResultsMap, a.WF → b.WF → c.WF →
        (∀ k, ((a.merge b).merge c).find k = (a.merge (b.merge c)).find k)
      ∧ (∀ k, (a.merge b).find k = (b.merge a).find k)) := by
  constructor
  · intro gs k
    rw [find_foldl_merge, find_ingestAll]
    have h0 : ResultsMap.empty.find k = combTemps none [] := rfl
    rw [h0, foldl_mergeOpt_groups, List.nil_append]
  · intro a b c ha hb hc
    constructor
    · intro k
      have h1 : ((a.merge b).merge c).find k
          = mergeOpt (mergeOpt (a.find k) (b.find k)) (c.find k) := by
        rw [find_merge _ _ hc, find_merge _ _ hb]
      have h2 : (a.merge (b.merge c)).find k
          = mergeOpt (a.find k) (mergeOpt (b.find k) (c.find k)) := by
        rw [find_merge _ _ (wf_merge hb hc), find_merge _ _ hc]
      rw [h1, h2, mergeOpt_assoc]
    · intro k
      rw [find_merge _ _ hb, find_merge _ _ ha, mergeOpt_comm]

/-- Witness for C1 at concrete maps and keys. -/
theorem merge_partition_and_algebra_witness :
    (((ResultsMap.mk [([65], Stats.new ⟨10⟩)]).merge
        (ResultsMap.mk [([66], Stats.new ⟨20⟩)])).merge
          (ResultsMap.mk [([65], Stats.new ⟨30⟩)])).find [65]
      = ((ResultsMap.mk [([65], Stats.new ⟨10⟩)]).merge
          ((ResultsMap.mk [([66], Stats.new ⟨20⟩)]).merge
            (ResultsMap.mk [([65], Stats.new ⟨30⟩)]))).find [65]
  ∧ ((ResultsMap.mk [([65], Stats.new ⟨10⟩)]).merge
        (ResultsMap.mk [([66], Stats.new ⟨20⟩)])).find [66]
      = ((ResultsMap.mk [([66], Stats.new ⟨20⟩)]).merge
          (ResultsMap.mk [([65], Stats.new ⟨10⟩)])).find [66] :=
  ⟨((merge_partition_and_algebra.2 (ResultsMap.mk [([65], Stats.new ⟨10⟩)])
      (ResultsMap.mk [([66], Stats.new ⟨20⟩)]) (ResultsMap.mk [([65], Stats.new ⟨30⟩)])
      (by unfold ResultsMap.WF; decide) (by unfold ResultsMap.WF; decide)
      (by unfold ResultsMap.WF; decide)).1 [65]),
   ((merge_partition_and_algebra.2 (ResultsMap.mk [([65], Stats.new ⟨10⟩)])
      (ResultsMap.mk [([66], Stats.new ⟨20⟩)]) (ResultsMap.mk [([65], Stats.new ⟨30⟩)])
      (by unfold ResultsMap.WF; decide) (by unfold ResultsMap.WF; decide)
      (by unfold ResultsMap.WF; decide)).2 [66])⟩

/-- C9: merging with an empty map, in either direction, leaves the map
unchanged (here even as a structure, hence with identical keys and
per-key stats). -/
theorem merge_empty_identity (m : ResultsMap) :
    ResultsMap.empty.merge m = m ∧ m.merge ResultsMap.empty = m := by
  constructor
  · rfl
  · obtain ⟨l⟩ := m
    cases l with
    | nil => rfl
    | cons p rest => rfl

/-!  Rounding of the mean (C2). -/

/-- C2: for an `i32` tenths value `X` and a count `N ≥ 1`, dividing a
`Temperature` by the count yields the integer `m` nearest to the exact
rational `X / N` (within half a unit: `2|X - N*m| ≤ N`), with ties
rounded away from zero (`|X| ≤ |N*m|` at a tie); in particular
`25 / 2 = 13` tenths (`1.3`, not `1.2`). -/
theorem div_rounds_half_away (X : Int) (N : Nat) (hx : X.natAbs ≤ 2147483648)
    (hn : 1 ≤ N) :
    2 * ((X - N * (Temperature.div ⟨X⟩ N).tenths).natAbs) ≤ N
  ∧ (2 * ((X - N * (Temperature.div ⟨X⟩ N).tenths).natAbs) = N →
      X.natAbs ≤ ((N : Int) * (Temperature.div ⟨X⟩ N).tenths).natAbs)
  ∧ Temperature.div ⟨25⟩ 2 = ⟨13⟩ := by
  have hd : (Temperature.div ⟨X⟩ N).tenths = roundHalfAway X N := rfl
  rw [hd]
  by_cases hxs : 0 ≤ X
  · have hq : roundHalfAway X N = (2 * X + ↑N) / (2 * ↑N) := by
      unfold roundHalfAway
      rw [if_pos hxs]
      rfl
    have h1 := Int.ediv_add_emod (2 * X + ↑N) (2 * ↑N)
    rw [← hq] at h1
    have h4 : 2 * ((N : Int) * roundHalfAway X N) + (2 * X + ↑N) % (2 * ↑N)
        = 2 * X + ↑N := by
      linear_combination h1
    have h2 : 0 ≤ (2 * X + ↑N) % (2 * ↑N) :=
      Int.emod_nonneg _ (by omega)
    have h3 : (2 * X + ↑N) % (2 * ↑N) < 2 * ↑N :=
      Int.emod_lt_of_pos _ (by omega)
    refine ⟨by omega, by omega, by decide⟩
  · have hq : roundHalfAway X N = -((2 * (-X) + ↑N) / (2 * ↑N)) := by
      unfold roundHalfAway
      rw [if_neg hxs]
      rfl
    have h1 := Int.ediv_add_emod (2 * (-X) + ↑N) (2 * ↑N)
    have hq2 : (2 * (-X) + ↑N) / (2 * ↑N) = -roundHalfAway X N := by
      rw [hq]
      ring
    rw [hq2] at h1
    have h4 : -(2 * ((N : Int) * roundHalfAway X N)) + (2 * (-X) + ↑N) % (2 * ↑N)
        = 2 * (-X) + ↑N := by
      linear_combination h1
    have h2 : 0 ≤ (2 * (-X) + ↑N) % (2 * ↑N) :=
      Int.emod_nonneg _ (by omega)
    have h3 : (2 * (-X) + ↑N) % (2 * ↑N) < 2 * ↑N :=
      Int.emod_lt_of_pos _ (by omega)
    refine ⟨by omega, by omega, by decide⟩

/-- Witness for C2 at `X = 25`, `N = 2` (and `X = -35`, `N = 2`). -/
theorem div_rounds_half_away_witness :
    2 * (((25 : Int) - 2 * (Temperature.div ⟨25⟩ 2).tenths).natAbs) ≤ 2
  ∧ (2 * (((25 : Int) - 2 * (Temperature.div ⟨25⟩ 2).tenths).natAbs) = 2 →
      (25 : Int).natAbs ≤ ((2 : Int) * (Temperature.div ⟨25⟩ 2).tenths).natAbs)
  ∧ Temperature.div ⟨25⟩ 2 = ⟨13⟩ :=
  div_rounds_half_away 25 2 (by decide) (by decide)

/-!  The relaxed parser on arbitrary input (C10). -/

theorem parse_fold_char (s : List Nat) (t : Int) (n : Bool) :
    s.foldl parseStep (t, n) =
      (accFrom t (s.filter isDigitB), n || decide (45 ∈ s)) := by
  induction s generalizing t n with
  | nil => simp [accFrom]
  | cons b rest ih =>
    by_cases h45 : b = 45
    · subst h45
      rw [List.foldl_cons]
      have hstep : parseStep (t, n) 45 = (t, true) := rfl
      rw [hstep, ih]
      simp [isDigitB]
    · by_cases hd : isDigitB b = true
      · have hstep : parseStep (t, n) b = (wrap32 (t * 10 + ((b : Int) - 48)), n) := by
          unfold parseStep
          simp [h45, hd]
        rw [List.foldl_cons, hstep, ih]
        have hacc : accFrom t ((b :: rest).filter isDigitB) =
            accFrom (wrap32 (t * 10 + ((b : Int) - 48))) (rest.filter isDigitB) := by
          rw [List.filter_cons_of_pos hd]
          rfl
        rw [hacc]
        simp [Ne.symm h45]
      · have hstep : parseStep (t, n) b = (t, n) := by
          unfold parseStep
          simp [h45, hd]
        rw [List.foldl_cons, hstep, ih]
        rw [List.filter_cons_of_neg (by simpa using hd)]
        simp [Ne.symm h45]

/-- C10: `Temperature::parse` is total on arbitrary byte input and
returns the wrapping accumulation of exactly the digit bytes (in
order), negated precisely when a `b'-'` occurs anywhere; all other
bytes are ignored. -/
theorem parse_total_characterization (s : List Nat) :
    Temperature.parse s =
      ⟨if 45 ∈ s then i32neg (accFrom 0 (s.filter isDigitB))
       else accFrom 0 (s.filter isDigitB)⟩ := by
  unfold Temperature.parse
  rw [parse_fold_char]
  by_cases h : 45 ∈ s <;> simp [h]

/-!  The strict parser on grammar strings (C4, C3). -/

theorem psGo_digits (ds : List Nat) (t : Int) (neg : Bool) (f : Nat)
    (hdig : ∀ d ∈ ds, isDigitB d = true) (hf : isDigitB f = true) :
    psGo PState.digit neg t (ds ++ [46, f]) =
      Except.ok ⟨if neg then i32neg (accFrom t (ds ++ [f]))
                 else accFrom t (ds ++ [f])⟩ := by
  induction ds generalizing t with
  | nil =>
    have h46 : isDigitB 46 = false := rfl
    simp only [List.nil_append]
    rw [psGo]
    simp only [h46, Bool.false_eq_true, if_false, if_pos rfl]
    rw [psGo]
    simp only [hf, if_true]
    rw [psGo]
    simp only [if_pos rfl]
    rfl
  | cons d ds2 ih =>
    have hd : isDigitB d = true := hdig d (List.mem_cons_self _ _)
    rw [List.cons_append, psGo]
    simp only [hd, if_true]
    rw [ih _ (fun x hx => hdig x (List.mem_cons_of_mem _ hx))]
    rfl

theorem not_mem_45_of_digits {ds : List Nat}
    (hdig : ∀ d ∈ ds, isDigitB d = true) : 45 ∉ ds := by
  intro h
  have := hdig 45 h
  simp [isDigitB] at this

theorem mem_45_grammarStr (neg : Bool) (ds : List Nat) (f : Nat)
    (hdig : ∀ d ∈ ds, isDigitB d = true) (hf : isDigitB f = true) :
    (45 ∈ grammarStr neg ds f) ↔ neg = true := by
  have h1 : 45 ∉ ds := not_mem_45_of_digits hdig
  have h2 : (45 : Nat) ≠ f := by
    intro h
    rw [← h] at hf
    simp [isDigitB] at hf
  cases neg <;> simp [grammarStr, h1, h2]

theorem filter_grammarStr (neg : Bool) (ds : List Nat) (f : Nat)
    (hdig : ∀ d ∈ ds, isDigitB d = true) (hf : isDigitB f = true) :
    (grammarStr neg ds f).filter isDigitB = ds ++ [f] := by
  have h1 : ds.filter isDigitB = ds := List.filter_eq_self.mpr hdig
  have h46 : isDigitB 46 = false := rfl
  have h45 : isDigitB 45 = false := rfl
  cases neg <;> simp [grammarStr, List.filter_append, h1, hf, h46, h45]

/-- The relaxed parse of a grammar string: sign from the optional
minus, digits accumulated in order. -/
theorem parse_grammarStr (neg : Bool) (ds : List Nat) (f : Nat)
    (hdig : ∀ d ∈ ds, isDigitB d = true) (hf : isDigitB f = true) :
    Temperature.parse (grammarStr neg ds f) =
      ⟨if neg then i32neg (accFrom 0 (ds ++ [f])) else accFrom 0 (ds ++ [f])⟩ := by
  rw [parse_total_characterization, filter_grammarStr neg ds f hdig hf]
  by_cases h : neg = true
  · subst h
    simp [(mem_45_grammarStr true ds f hdig hf).mpr rfl]
  · have hneg : neg = false := by simpa using h
    subst hneg
    have : ¬(45 ∈ grammarStr false ds f) := by
      rw [mem_45_grammarStr false ds f hdig hf]
      simp
    simp [this]

/-- The strict parse of a grammar string: accumulate the digits and
negate when the minus sign is present. -/
theorem parse_strict_grammarStr (neg : Bool) (ds : List Nat) (f : Nat)
    (hne : ds ≠ []) (hdig : ∀ d ∈ ds, isDigitB d = true) (hf : isDigitB f = true) :
    Temperature.parse_strict (grammarStr neg ds f) =
      Except.ok ⟨if neg then i32neg (accFrom 0 (ds ++ [f]))
                 else accFrom 0 (ds ++ [f])⟩ := by
  cases neg with
  | true =>
    show psGo PState.sign false 0 (45 :: (ds ++ [46, f])) = _
    rw [psGo, if_pos rfl, psGo_digits ds 0 true f hdig hf]
  | false =>
    cases ds with
    | nil => exact absurd rfl hne
    | cons d0 ds2 =>
      have hd0 : isDigitB d0 = true := hdig d0 (List.mem_cons_self _ _)
      have hd0ne : ¬(d0 = 45) := by
        intro h
        rw [h] at hd0
        simp [isDigitB] at hd0
      show psGo PState.sign false 0 (d0 :: (ds2 ++ [46, f])) = _
      rw [psGo, if_neg hd0ne, if_pos hd0]
      rw [psGo_digits ds2 ((d0 : Int) - 48) false f
        (fun x hx => hdig x (List.mem_cons_of_mem _ hx)) hf]
      have hacc : accFrom 0 ((d0 :: ds2) ++ [f]) =
          accFrom ((d0 : Int) - 48) (ds2 ++ [f]) := by
        show accFrom (wrap32 (0 * 10 + ((d0 : Int) - 48))) (ds2 ++ [f]) = _
        rw [show (0 : Int) * 10 + ((d0 : Int) - 48) = (d0 : Int) - 48 by ring]
        rw [wrap32_small (by simp [isDigitB] at hd0; omega) (by simp [isDigitB] at hd0; omega)]
      rw [hacc]

/-- C4: on every string of the strict grammar, the relaxed parser
agrees with the strict one. -/
theorem parse_strict_agrees (s : List Nat) (h : MatchesGrammar s) :
    Temperature.parse_strict s = Except.ok (Temperature.parse s) := by
  obtain ⟨neg, ds, f, rfl, hne, hdig, hf⟩ := h
  rw [parse_grammarStr neg ds f hdig hf,
    parse_strict_grammarStr neg ds f hne hdig hf]

/-- Witness for C4 at the grammar string `12.3`. -/
theorem parse_strict_agrees_witness :
    Temperature.parse_strict [49, 50, 46, 51] =
      Except.ok (Temperature.parse [49, 50, 46, 51]) :=
  parse_strict_agrees [49, 50, 46, 51]
    ⟨false, [49, 50], 51, by decide, by decide, by decide, by decide⟩

/-!  Decimal rendering: bridging to `Nat.digits` (C3). -/

theorem natToDecAux_eq (fuel n : Nat) (h : n ≤ fuel) :
    natToDecAux fuel n = Nat.digits 10 n := by
  induction fuel generalizing n with
  | zero =>
    have hn : n = 0 := Nat.le_zero.mp h
    subst hn
    simp [natToDecAux]
  | succ fuel ih =>
    cases n with
    | zero => simp [natToDecAux]
    | succ m =>
      rw [natToDecAux, ih ((m + 1) / 10) (by omega)]
      rw [Nat.digits_def' (by norm_num : (1 : Nat) < 10) (Nat.succ_pos m)]

theorem natDigitsLE_eq (n : Nat) : natDigitsLE n = Nat.digits 10 n :=
  natToDecAux_eq n n (Nat.le_refl n)

theorem valNat_snoc (l : List Nat) (d : Nat) :
    valNat (l ++ [d]) = 10 * valNat l + (d - 48) := by
  unfold valNat
  rw [List.map_append, List.reverse_append]
  simp [Nat.ofDigits_cons]
  omega

/-- Wrapping digit accumulation computes the exact value as long as
the final value fits in an `i32`. -/
theorem accFrom_eq_valNat (l : List Nat) (hdig : ∀ d ∈ l, isDigitB d = true)
    (h : valNat l < 2147483648) :
    accFrom 0 l = (valNat l : Int) := by
  induction l using List.reverseRecOn with
  | nil => rfl
  | append_singleton l d ih =>
    have hd : 48 ≤ d := by
      have := hdig d (by simp)
      simp [isDigitB] at this
      omega
    rw [valNat_snoc] at h
    have hstep : accFrom 0 (l ++ [d]) =
        wrap32 (accFrom 0 l * 10 + ((d : Int) - 48)) := by
      unfold accFrom
      rw [List.foldl_append]
      rfl
    rw [hstep, ih (fun x hx => hdig x (by simp [hx])) (by omega), valNat_snoc]
    rw [wrap32_small (by omega) (by omega)]
    push_cast [hd]
    omega

theorem natToDec_digit (f : Nat) (hf : isDigitB f = true) :
    natToDec (f - 48) = [f] := by
  simp [isDigitB] at hf
  obtain ⟨h1, h2⟩ := hf
  interval_cases f <;> rfl

theorem natToDec_canonical (ds : List Nat) (hne : ds ≠ [])
    (hdig : ∀ d ∈ ds, isDigitB d = true)
    (hcanon : ds = [48] ∨ ds.head? ≠ some 48) :
    natToDec (valNat ds) = ds := by
  rcases hcanon with h | h
  · subst h
    rfl
  · obtain ⟨d0, rest, rfl⟩ : ∃ d0 rest, ds = d0 :: rest := by
      cases ds with
      | nil => exact absurd rfl hne
      | cons a l => exact ⟨a, l, rfl⟩
    have hd0d : isDigitB d0 = true := hdig d0 (List.mem_cons_self _ _)
    have hd0 : 49 ≤ d0 ∧ d0 ≤ 57 := by
      have h48 : d0 ≠ 48 := by simpa using h
      simp [isDigitB] at hd0d
      omega
    have hL : valNat (d0 :: rest) =
        Nat.ofDigits 10 (((d0 :: rest).map (fun d => d - 48)).reverse) := rfl
    have hlt : ∀ x ∈ ((d0 :: rest).map (fun d => d - 48)).reverse, x < 10 := by
      intro x hx
      rw [List.mem_reverse, List.mem_map] at hx
      obtain ⟨y, hy, rfl⟩ := hx
      have := hdig y hy
      simp [isDigitB] at this
      omega
    have hlast : ∀ hh : ((d0 :: rest).map (fun d => d - 48)).reverse ≠ [],
        (((d0 :: rest).map (fun d => d - 48)).reverse).getLast hh ≠ 0 := by
      intro hh
      have hsome : (((d0 :: rest).map (fun d => d - 48)).reverse).getLast? =
          some (d0 - 48) := by
        rw [List.getLast?_reverse]
        simp
      rw [List.getLast?_eq_getLast _ hh] at hsome
      have := Option.some.inj hsome
      omega
    have hdig10 : Nat.digits 10 (valNat (d0 :: rest)) =
        ((d0 :: rest).map (fun d => d - 48)).reverse := by
      rw [hL]
      exact Nat.digits_ofDigits 10 (by norm_num) _ hlt hlast
    have hvne : valNat (d0 :: rest) ≠ 0 := by
      intro h0
      rw [h0] at hdig10
      simp at hdig10
    unfold natToDec
    rw [if_neg hvne, natDigitsLE_eq, hdig10, List.reverse_reverse, List.map_map]
    rw [List.map_congr_left (fun d hd => ?_), List.map_id]
    have h48 : 48 ≤ d := by
      have := hdig d hd
      simp [isDigitB] at this
      omega
    simp
    omega

theorem intToDec_natCast (m : Nat) : intToDec ((m : Nat) : Int) = natToDec m := by
  unfold intToDec
  rw [if_neg (by omega)]
  simp

theorem display_nonneg (v : Nat) (h : v < 2147483648) :
    Temperature.display ⟨(v : Int)⟩ = natToDec (v / 10) ++ [46] ++ natToDec (v % 10) := by
  unfold Temperature.display
  have h0 : ¬((v : Int) < 0) := by omega
  have habs : i32abs (v : Int) = (v : Int) := by
    unfold i32abs
    rw [if_neg h0]
  rw [if_neg h0, habs]
  have hdiv : ((v : Int)).tdiv 10 = ((v / 10 : Nat) : Int) := rfl
  have hmod : ((v : Int)).tmod 10 = ((v % 10 : Nat) : Int) := rfl
  rw [hdiv, hmod, intToDec_natCast, intToDec_natCast]
  rfl

theorem display_neg (v : Nat) (h0 : 0 < v) (h : v < 2147483648) :
    Temperature.display ⟨-(v : Int)⟩ =
      45 :: (natToDec (v / 10) ++ [46] ++ natToDec (v % 10)) := by
  unfold Temperature.display
  have hlt : (-(v : Int)) < 0 := by omega
  have habs : i32abs (-(v : Int)) = (v : Int) := by
    unfold i32abs
    rw [if_pos hlt]
    unfold i32neg
    rw [neg_neg, wrap32_small (by omega) (by omega)]
  rw [if_pos hlt, habs]
  have hdiv : ((v : Int)).tdiv 10 = ((v / 10 : Nat) : Int) := rfl
  have hmod : ((v : Int)).tmod 10 = ((v % 10 : Nat) : Int) := rfl
  rw [hdiv, hmod, intToDec_natCast, intToDec_natCast]
  rfl

/-- C3 (amended): the round-trip `display (parse_strict s) = s` holds
for every grammar string that is canonical — no superfluous leading
zero in the integer part, no minus sign on a zero value — and whose
numeric value fits in an `i32`. -/
theorem display_roundtrip_canonical (neg : Bool) (ds : List Nat) (f : Nat)
    (hne : ds ≠ []) (hdig : ∀ d ∈ ds, isDigitB d = true) (hf : isDigitB f = true)
    (hcanon : ds = [48] ∨ ds.head? ≠ some 48)
    (hneg : neg = true → valNat (ds ++ [f]) ≠ 0)
    (hval : valNat (ds ++ [f]) < 2147483648) :
    Except.map Temperature.display (Temperature.parse_strict (grammarStr neg ds f))
      = Except.ok (grammarStr neg ds f) := by
  have hdigs : ∀ d ∈ ds ++ [f], isDigitB d = true := by
    intro x hx
    rcases List.mem_append.mp hx with hx | hx
    · exact hdig x hx
    · simp at hx
      rw [hx]
      exact hf
  have hfb : 48 ≤ f ∧ f ≤ 57 := by
    simp [isDigitB] at hf
    omega
  have hacc : accFrom 0 (ds ++ [f]) = ((valNat (ds ++ [f]) : Nat) : Int) :=
    accFrom_eq_valNat _ hdigs hval
  have hv10 : valNat (ds ++ [f]) / 10 = valNat ds := by
    rw [valNat_snoc]
    omega
  have hvm : valNat (ds ++ [f]) % 10 = f - 48 := by
    rw [valNat_snoc]
    omega
  rw [parse_strict_grammarStr neg ds f hne hdig hf]
  cases neg with
  | false =>
    simp only [Bool.false_eq_true, if_false, Except.map, hacc]
    rw [display_nonneg _ hval, hv10, hvm,
      natToDec_canonical ds hne hdig hcanon, natToDec_digit f hf]
    simp [grammarStr]
  | true =>
    have hvpos : 0 < valNat (ds ++ [f]) := Nat.pos_of_ne_zero (hneg rfl)
    have hneg32 : i32neg ((valNat (ds ++ [f]) : Nat) : Int)
        = -((valNat (ds ++ [f]) : Nat) : Int) := by
      unfold i32neg
      rw [wrap32_small (by omega) (by omega)]
    simp only [if_true, Except.map, hacc, hneg32]
    rw [display_neg _ hvpos hval, hv10, hvm,
      natToDec_canonical ds hne hdig hcanon, natToDec_digit f hf]
    simp [grammarStr]

/-- Counterexample to C3 as stated: `"-0.0"` matches the strict
grammar, but parsing and re-displaying yields `"0.0"`, not `"-0.0"`. -/
theorem display_roundtrip_cex :
    (∀ d ∈ [48], isDigitB d = true) ∧ isDigitB 48 = true ∧
    Except.map Temperature.display (Temperature.parse_strict (grammarStr true [48] 48))
      ≠ Except.ok (grammarStr true [48] 48) := by
  refine ⟨by decide, by decide, ?_⟩
  intro h
  rw [show Except.map Temperature.display (Temperature.parse_strict (grammarStr true [48] 48))
      = Except.ok [48, 46, 48] from rfl] at h
  simp [grammarStr] at h

/-- Witness for the amended C3 at the canonical grammar string `12.3`. -/
theorem display_roundtrip_canonical_witness :
    Except.map Temperature.display (Temperature.parse_strict (grammarStr false [49, 50] 51))
      = Except.ok (grammarStr false [49, 50] 51) :=
  display_roundtrip_canonical false [49, 50] 51 (by decide) (by decide) (by decide)
    (by decide) (fun h => absurd h (by decide)) (by decide)

/-!  `Row::parse` (C7) and skipped lines (C5). -/

theorem bytePos_none_of_not_mem {s : List Nat} (h : 59 ∉ s) :
    bytePos (fun b => b == 59) s = none := by
  induction s with
  | nil => rfl
  | cons b rest ih =>
    have hb : ¬(b = 59) := fun hb => h (by rw [hb]; exact List.mem_cons_self _ _)
    unfold bytePos
    simp only [beq_iff_eq, hb, if_false]
    rw [ih fun hr => h (List.mem_cons_of_mem _ hr)]
    rfl

/-- Helper for C5: a line with no separator makes `Row::parse` fail. -/
theorem row_parse_none {s : List Nat} (h : 59 ∉ s) : Row.parse s = none := by
  unfold Row.parse
  rw [bytePos_none_of_not_mem h]

theorem bytePos_takeWhile_dropWhile (s : List Nat) (h : 59 ∈ s) :
    ∃ i, bytePos (fun b => b == 59) s = some i ∧
      s.take i = s.takeWhile (fun b => !(b == 59)) ∧
      s.drop i = s.dropWhile (fun b => !(b == 59)) := by
  induction s with
  | nil => exact absurd h (List.not_mem_nil 59)
  | cons b rest ih =>
    by_cases hb : b = 59
    · subst hb
      refine ⟨0, ?_, ?_, ?_⟩ <;> simp [bytePos, List.takeWhile, List.dropWhile]
    · have hr : 59 ∈ rest := by
        rcases List.mem_cons.mp h with h1 | h1
        · exact absurd h1.symm hb
        · exact h1
      obtain ⟨i, hpos, htake, hdrop⟩ := ih hr
      refine ⟨i + 1, ?_, ?_, ?_⟩
      · unfold bytePos
        simp only [beq_iff_eq, hb, if_false, hpos]
        rfl
      · rw [List.take_succ_cons, htake, List.takeWhile_cons_of_pos (by simpa using hb)]
      · rw [List.drop_succ_cons, hdrop, List.dropWhile_cons_of_pos (by simpa using hb)]

theorem dropWhile_sep_head (s : List Nat) (h : 59 ∈ s) :
    ∃ rest, s.dropWhile (fun b => !(b == 59)) = 59 :: rest := by
  induction s with
  | nil => exact absurd h (List.not_mem_nil 59)
  | cons b rest ih =>
    by_cases hb : b = 59
    · subst hb
      exact ⟨rest, by simp [List.dropWhile]⟩
    · have hr : 59 ∈ rest := by
        rcases List.mem_cons.mp h with h1 | h1
        · exact absurd h1.symm hb
        · exact h1
      obtain ⟨r2, hr2⟩ := ih hr
      exact ⟨r2, by rw [List.dropWhile_cons_of_pos (by simpa using hb)]; exact hr2⟩

/-- C7: for a line with a separator, `Row::parse` returns the bytes
strictly before the first `';'` as the name and the relaxed parse of
the remainder after the `';'` as the value (the leaked `';'` is
ignored by the numeric scan); for a line with no separator it returns
`none`. -/
theorem row_parse_spec (s : List Nat) :
    (59 ∈ s → Row.parse s = some ⟨s.takeWhile (fun b => !(b == 59)),
        Temperature.parse ((s.dropWhile (fun b => !(b == 59))).drop 1)⟩)
  ∧ (59 ∉ s → Row.parse s = none) := by
  constructor
  · intro h
    obtain ⟨i, hpos, htake, hdrop⟩ := bytePos_takeWhile_dropWhile s h
    unfold Row.parse
    rw [hpos]
    simp only [Option.some.injEq]
    rw [htake, hdrop]
    obtain ⟨rest, hrest⟩ := dropWhile_sep_head s h
    rw [hrest]
    have hskip : Temperature.parse (59 :: rest) = Temperature.parse rest := rfl
    rw [List.drop_one, List.tail_cons, hskip]
  · exact row_parse_none

/-- Witness for C7 on the lines `AB;1.2` and `AB`. -/
theorem row_parse_spec_witness :
    Row.parse [65, 66, 59, 49, 46, 50] =
      some ⟨[65, 66], Temperature.parse [49, 46, 50]⟩
  ∧ Row.parse [65, 66] = none := by
  constructor
  · have h := (row_parse_spec [65, 66, 59, 49, 46, 50]).1 (by decide)
    rw [h]
    rfl
  · exact (row_parse_spec [65, 66]).2 (by decide)

theorem foldl_rowStep_filter (ls : List (List Nat)) (m : ResultsMap) :
    ls.foldl rowStep m = (ls.filter (fun l => decide (59 ∈ l))).foldl rowStep m := by
  induction ls generalizing m with
  | nil => rfl
  | cons l ls ih =>
    by_cases h : 59 ∈ l
    · rw [List.foldl_cons, List.filter_cons_of_pos (by simpa using h),
        List.foldl_cons, ih]
    · have hstep : rowStep m l = m := by
        unfold rowStep
        rw [row_parse_none h]
      rw [List.foldl_cons, hstep, List.filter_cons_of_neg (by simpa using h), ih]

/-- C5 (amended): lines without a separator byte — empty lines
anywhere, not only a trailing one, and any other separator-less line —
are silently skipped: `process_data` never aborts and equals the fold
over only the separator-carrying lines. Lines that do contain a
separator are always ingested, with the relaxed parser's (unvalidated)
value for the number part. -/
theorem processData_skips_malformed (data : List Nat) :
    processData data =
      ((splitSep data).filter (fun l => decide (59 ∈ l))).foldl
        rowStep ResultsMap.empty := by
  unfold processData
  exact foldl_rowStep_filter _ _

/-- Counterexample to C5 as stated: the input `"A\nX;1.0\n"` contains
the malformed, non-trailing line `"A"` (no separator), yet the run
does not abort: it produces the summary output `"{X=1.0/1.0/1.0}"`,
ignoring the malformed line. -/
theorem processData_no_abort_cex :
    pipeline (strBytes "A\nX;1.0\n") = strBytes "\x7bX=1.0/1.0/1.0\x7d" := by
  decide

/-- C6: the whole pipeline on the three-record example input produces
exactly the expected summary line. -/
theorem pipeline_scenario1 :
    pipeline (strBytes "Hamburg;12.0\nBerlin;-3.5\nHamburg;14.0\n")
      = strBytes "\x7bBerlin=-3.5/-3.5/-3.5, Hamburg=12.0/13.0/14.0\x7d" := by
  decide

/-!  Sorted summary (C8). -/

theorem lexLe_total (a : List Nat) : ∀ b, lexLe a b = true ∨ lexLe b a = true := by
  induction a with
  | nil => exact fun b => Or.inl rfl
  | cons x as_ ih =>
    intro b
    cases b with
    | nil => exact Or.inr rfl
    | cons y bs =>
      rcases Nat.lt_trichotomy x y with h | h | h
      · left
        simp [lexLe, h]
      · subst h
        rcases ih bs with h2 | h2
        · left
          simp [lexLe, h2]
        · right
          simp [lexLe, h2]
      · right
        simp [lexLe, h]

theorem lexLe_trans : ∀ (a b c : List Nat),
    lexLe a b = true → lexLe b c = true → lexLe a c = true := by
  intro a
  induction a with
  | nil => exact fun b c h1 h2 => rfl
  | cons x as_ ih =>
    intro b c h1 h2
    cases b with
    | nil => simp [lexLe] at h1
    | cons y bs =>
      cases c with
      | nil => simp [lexLe] at h2
      | cons z cs =>
        simp only [lexLe, Bool.or_eq_true, Bool.and_eq_true, decide_eq_true_eq,
          beq_iff_eq] at h1 h2 ⊢
        rcases h1 with h1 | ⟨h1e, h1r⟩
        · rcases h2 with h2 | ⟨h2e, h2r⟩
          · left
            omega
          · left
            omega
        · rcases h2 with h2 | ⟨h2e, h2r⟩
          · left
            omega
          · right
            exact ⟨by omega, ih bs cs h1r h2r⟩

instance : IsTotal (List Nat × FinalStats) keyLe :=
  ⟨fun p q => lexLe_total p.1 q.1⟩

instance : IsTrans (List Nat × FinalStats) keyLe :=
  ⟨fun p q r => lexLe_trans p.1 q.1 r.1⟩

theorem pairwise_and {α : Type} {l : List α} {R S : α → α → Prop}
    (h1 : l.Pairwise R) (h2 : l.Pairwise S) :
    l.Pairwise (fun a b => R a b ∧ S a b) := by
  induction l with
  | nil => exact List.Pairwise.nil
  | cons x xs ih =>
    rw [List.pairwise_cons] at h1 h2 ⊢
    exact ⟨fun q hq => ⟨h1.1 q hq, h2.1 q hq⟩, ih h1.2 h2.2⟩

/-- C8: for every input, the final summary sequence is strictly
increasing in raw-byte lexicographic key order — consecutive and
indeed all pairs are `lexLe`-ordered with distinct keys, so no key
appears twice. -/
theorem summary_sorted_strict (data : List Nat) :
    (summarize data).Pairwise (fun p q => lexLe p.1 q.1 = true ∧ p.1 ≠ q.1) := by
  have hsorted : (summarize data).Pairwise keyLe :=
    List.sorted_insertionSort keyLe _
  have hperm : List.Perm (summarize data)
      ((processData data).map.map (fun p => (p.1, p.2.finalize))) :=
    List.perm_insertionSort keyLe _
  have hwf : (processData data).map.Pairwise (fun p q => p.1 ≠ q.1) :=
    wf_processData data
  have hne0 : ((processData data).map.map (fun p => (p.1, p.2.finalize))).Pairwise
      (fun p q => p.1 ≠ q.1) := by
    rw [List.pairwise_map]
    exact hwf
  have hne : (summarize data).Pairwise (fun p q => p.1 ≠ q.1) :=
    (hperm.pairwise_iff fun h => Ne.symm h).mpr hne0
  exact pairwise_and hsorted hne
